import Mathlib

/-!
Verification of `kth-largest-element-in-number-stream.py`.

The script maintains the k-th largest element of a number stream with four
competing strategies inside class `KthLargestElement`:

  * `_add_stupid_method`  — append to the full stream, re-sort, read rank k;
  * `_add_simple_method`  — a sorted shortlist of the k largest values;
  * `_add_bst_method`     — a `sortedcontainers.SortedList` of the k largest;
  * `_add_heap_method`    — a `heapq` min-heap of the k largest;

and a coordinator method `add` that feeds one number to all four in sequence.

Numbers are embedded as `Int` (the driver only ever produces integers).
Python's `sorted` is embedded as `List.insertionSort (· ≤ ·)`: any comparison
sort agrees with it on the output list.  `sortedcontainers.SortedList` and
`heapq` are external libraries, not part of the repository; they are modelled
by their documented contracts: `SortedList` keeps its elements in ascending
order (`add` is an ordered insert, `pop(0)` removes the smallest element,
index `0` reads the smallest), and a `heapq` heap always has its minimum at
index `0`, `heappush` adds an element and `heappop` removes the minimum.  The
heap is represented by the canonical heap layout of its multiset — the
ascending sequence (an ascending list is a valid binary min-heap).

Indexing `[0]` on an empty Python list raises `IndexError`; all operations
that index are therefore embedded with an `Option` result, `none` standing
for the raised exception.  The timing decorator and the `runtimes_*` lists
are pure instrumentation with no effect on the computed values and are not
modelled.
-/

namespace KthLargestStream

/-- Python `sorted(l)`: the ascending sorted copy of `l`. -/
def pySorted (l : List Int) : List Int :=
  List.insertionSort (· ≤ ·) l

/-- Python `l[-k:]`: the last `k` elements of `l` (the whole list when
`l` has at most `k` elements, and also when `k = 0`, since `-0 == 0` and
`l[0:]` is all of `l`). -/
def sliceLast (k : Nat) (l : List Int) : List Int :=
  if k = 0 then l else l.drop (l.length - k)

/-- The state of a `KthLargestElement` object: the full stream, the
parameter `k`, and the three incremental k-largest windows. -/
structure KthState where
  stream : List Int
  k : Nat
  k_largest_elements_sorted_list : List Int
  k_largest_elements_bst : List Int
  k_largest_elements_heap : List Int
deriving Repr, DecidableEq

/-- `_get_k_largest_elements(stream)` = `sorted(stream)[-self.k:]`. -/
def get_k_largest_elements (k : Nat) (stream : List Int) : List Int :=
  sliceLast k (pySorted stream)

/-- `_get_kth_largest_element(stream)` = `_get_k_largest_elements(stream)[0]`;
`none` models the `IndexError` on an empty list. -/
def get_kth_largest_element (k : Nat) (stream : List Int) : Option Int :=
  (get_k_largest_elements k stream).head?

/-- `KthLargestElement.__init__(initial_stream, k)`: stores the stream and
`k`; the sorted shortlist is `self._get_k_largest_elements(self.stream)[-self.k:]`
(the slice is applied twice in the source); the BST is
`SortedList(shortlist)` (ascending contents); the heap is a heapified copy
of the shortlist (same multiset, minimum at index 0, represented in the
canonical ascending layout).  No precondition on `len(initial_stream)` is
checked anywhere in the constructor. -/
def init (initial_stream : List Int) (k : Nat) : KthState :=
  let w := sliceLast k (get_k_largest_elements k initial_stream)
  { stream := initial_stream
    k := k
    k_largest_elements_sorted_list := w
    k_largest_elements_bst := pySorted w
    k_largest_elements_heap := pySorted w }

/-- `_add_stupid_method(number)`: append to the stream, then return the k-th
largest element of the whole stream. -/
def add_stupid_method (s : KthState) (number : Int) : Option (Int × KthState) :=
  match get_kth_largest_element s.k (s.stream ++ [number]) with
  | none => none
  | some v => some (v, { s with stream := s.stream ++ [number] })

/-- `_add_simple_method(number)`: if `number > shortlist[0]`, append `number`,
`pop(0)`, and re-sort; return `shortlist[0]` (in the no-change branch the list
is unread since the comparison, so the returned element is the matched
minimum and the state is unchanged). -/
def add_simple_method (s : KthState) (number : Int) : Option (Int × KthState) :=
  match s.k_largest_elements_sorted_list.head? with
  | none => none
  | some m =>
    if m < number then
      match (pySorted ((s.k_largest_elements_sorted_list ++ [number]).tail)).head? with
      | none => none
      | some r => some (r, { s with k_largest_elements_sorted_list := pySorted ((s.k_largest_elements_sorted_list ++ [number]).tail) })
    else some (m, s)

/-- Contract of `sortedcontainers.SortedList.add`: insert keeping ascending
order. -/
def sortedListAdd (l : List Int) (x : Int) : List Int :=
  List.orderedInsert (· ≤ ·) x l

/-- Contract of `SortedList.pop(0)`: remove the element at index 0 (the
smallest, the list being ascending). -/
def sortedListPop0 (l : List Int) : List Int :=
  l.tail

/-- `_add_bst_method(number)`: if `number > bst[0]`, `bst.add(number)` then
`bst.pop(0)`; return `bst[0]`. -/
def add_bst_method (s : KthState) (number : Int) : Option (Int × KthState) :=
  match s.k_largest_elements_bst.head? with
  | none => none
  | some m =>
    if m < number then
      match (sortedListPop0 (sortedListAdd s.k_largest_elements_bst number)).head? with
      | none => none
      | some r => some (r, { s with k_largest_elements_bst := sortedListPop0 (sortedListAdd s.k_largest_elements_bst number) })
    else some (m, s)

/-- Contract of `heapq.heappush`: add one element to the heap (the list
grows by one; in the canonical ascending layout this is an ordered
insert). -/
def heappush (heap : List Int) (item : Int) : List Int :=
  List.orderedInsert (· ≤ ·) item heap

/-- Contract of `heapq.heappop`: remove and return the minimum, i.e. the
element at index 0; `none` models the `IndexError` on an empty heap. -/
def heappop (heap : List Int) : Option (Int × List Int) :=
  heap.head?.map (fun m => (m, heap.tail))

/-- Contract of `heapq.heappushpop(heap, item)`: the combined push-then-pop,
performed in place without the heap ever holding more than its current
number of elements: if the heap is nonempty and its minimum is below
`item`, the minimum is returned and `item` takes its place; otherwise
`item` itself is returned and the heap is unchanged. -/
def heappushpop (heap : List Int) (item : Int) : Int × List Int :=
  match heap with
  | [] => (item, [])
  | m :: t =>
    if m < item then (m, List.orderedInsert (· ≤ ·) item t) else (item, m :: t)

/-- `_add_heap_method(number)`: if `number > heap[0]`, `heappush` then
`heappop` (two separate heap operations, as in the source); return
`heap[0]`. -/
def add_heap_method (s : KthState) (number : Int) : Option (Int × KthState) :=
  match s.k_largest_elements_heap.head? with
  | none => none
  | some m =>
    if m < number then
      match heappop (heappush s.k_largest_elements_heap number) with
      | none => none
      | some (_, h') =>
        match h'.head? with
        | none => none
        | some r => some (r, { s with k_largest_elements_heap := h' })
    else some (m, s)

/-- `KthLargestElement.add(number)`: run the four strategy methods in the
source's order, discarding each returned value.  The method body contains
no comparison of the four results and no raise statement; the only way it
can fail is an `IndexError` escaping from one of the four methods. -/
def add (s : KthState) (number : Int) : Option KthState :=
  match add_stupid_method s number with
  | none => none
  | some (_, s1) =>
    match add_simple_method s1 number with
    | none => none
    | some (_, s2) =>
      match add_bst_method s2 number with
      | none => none
      | some (_, s3) =>
        match add_heap_method s3 number with
        | none => none
        | some (_, s4) => some s4

/-- Process a finite sequence of observations through `add`, one by one. -/
def processAll (s : KthState) (xs : List Int) : Option KthState :=
  match xs with
  | [] => some s
  | x :: rest =>
    match add s x with
    | none => none
    | some s' => processAll s' rest

/-- The reachable-state invariant for a correctly seeded object:
positive `k`, the sorted shortlist is exactly the ascending list of the `k`
largest stream elements and has length `k`, and the BST and heap windows
coincide with it. -/
def Inv (s : KthState) : Prop :=
  0 < s.k ∧
  s.k_largest_elements_sorted_list = get_k_largest_elements s.k s.stream ∧
  s.k_largest_elements_sorted_list.length = s.k ∧
  s.k_largest_elements_bst = s.k_largest_elements_sorted_list ∧
  s.k_largest_elements_heap = s.k_largest_elements_sorted_list

instance (s : KthState) : Decidable (Inv s) := by
  unfold Inv
  infer_instance

theorem init_k (seed : List Int) (k : Nat) : (init seed k).k = k := rfl

/-! ### Basic lemmas about `pySorted` and `sliceLast` -/

theorem pySorted_sorted (l : List Int) : List.Sorted (· ≤ ·) (pySorted l) :=
  List.sorted_insertionSort _ l

theorem pySorted_perm (l : List Int) : (pySorted l).Perm l :=
  List.perm_insertionSort _ l

theorem pySorted_eq_self (l : List Int) (h : List.Sorted (· ≤ ·) l) :
    pySorted l = l :=
  List.eq_of_perm_of_sorted (pySorted_perm l) (pySorted_sorted l) h

theorem pySorted_append_single (l : List Int) (x : Int) :
    pySorted (l ++ [x]) = List.orderedInsert (· ≤ ·) x (pySorted l) := by
  refine List.eq_of_perm_of_sorted ?_ (pySorted_sorted _)
    ((pySorted_sorted l).orderedInsert x _)
  have p1 : (pySorted (l ++ [x])).Perm (l ++ [x]) := pySorted_perm _
  have p2 : (l ++ [x]).Perm (x :: l) := List.perm_append_singleton x l
  have p3 : (x :: l).Perm (x :: pySorted l) := (pySorted_perm l).symm.cons x
  have p4 : (x :: pySorted l).Perm (List.orderedInsert (· ≤ ·) x (pySorted l)) :=
    (List.perm_orderedInsert _ x _).symm
  exact ((p1.trans p2).trans p3).trans p4

theorem pySorted_cons_tail (t : List Int) (x : Int)
    (h : List.Sorted (· ≤ ·) t) :
    pySorted (t ++ [x]) = List.orderedInsert (· ≤ ·) x t := by
  rw [pySorted_append_single, pySorted_eq_self t h]

theorem sliceLast_sorted (k : Nat) (l : List Int)
    (h : List.Sorted (· ≤ ·) l) : List.Sorted (· ≤ ·) (sliceLast k l) := by
  unfold sliceLast
  split
  · exact h
  · exact List.Pairwise.drop h

theorem sliceLast_cons (a : Int) (l : List Int) (k : Nat)
    (hk : k ≠ 0) (hkl : k ≤ l.length) :
    sliceLast k (a :: l) = sliceLast k l := by
  unfold sliceLast
  rw [if_neg hk, if_neg hk]
  have h1 : (a :: l).length - k = (l.length - k) + 1 := by
    simp only [List.length_cons]
    omega
  rw [h1, List.drop_succ_cons]

theorem sliceLast_self (l : List Int) : sliceLast l.length l = l := by
  unfold sliceLast
  split
  · rfl
  · simp

theorem sliceLast_append_left (P W : List Int) (hW : W.length ≠ 0) :
    sliceLast W.length (P ++ W) = W := by
  unfold sliceLast
  rw [if_neg hW]
  have h1 : (P ++ W).length - W.length = P.length := by
    simp only [List.length_append]
    omega
  rw [h1, List.drop_left]

theorem sliceLast_idem (k : Nat) (l : List Int) :
    sliceLast k (sliceLast k l) = sliceLast k l := by
  unfold sliceLast
  split
  · rfl
  · have h1 : (l.drop (l.length - k)).length ≤ k := by
      simp only [List.length_drop]
      omega
    have h2 : (l.drop (l.length - k)).length - k = 0 := by omega
    rw [h2, List.drop_zero]

/-! ### The window-update lemma

If an ascending list decomposes as `A ++ m :: t` and the window of the
last `t.length + 1` elements is `m :: t`, then inserting `x` moves the
window to `orderedInsert x t` when `m < x` and leaves it unchanged
otherwise. -/

theorem step_core (x m : Int) :
    ∀ A t : List Int, List.Sorted (· ≤ ·) (A ++ m :: t) →
      sliceLast (t.length + 1) (List.orderedInsert (· ≤ ·) x (A ++ m :: t)) =
        if m < x then List.orderedInsert (· ≤ ·) x t else m :: t := by
  intro A
  induction A with
  | nil =>
    intro t hs
    simp only [List.nil_append] at hs ⊢
    by_cases hxm : x ≤ m
    · rw [if_neg (not_lt.mpr hxm)]
      have he : List.orderedInsert (· ≤ ·) x (m :: t) = x :: m :: t := by
        simp [List.orderedInsert, hxm]
      rw [he]
      have : x :: m :: t = [x] ++ m :: t := rfl
      rw [this]
      have hlen : (m :: t).length ≠ 0 := by simp
      have := sliceLast_append_left [x] (m :: t) hlen
      simpa using this
    · rw [if_pos (not_le.mp hxm)]
      have he : List.orderedInsert (· ≤ ·) x (m :: t) =
          m :: List.orderedInsert (· ≤ ·) x t := by
        simp [List.orderedInsert, hxm]
      rw [he]
      have hlen : (List.orderedInsert (· ≤ ·) x t).length = t.length + 1 :=
        List.orderedInsert_length _ t x
      rw [sliceLast_cons m _ _ (by omega) (by omega), ← hlen, sliceLast_self]
  | cons a A ih =>
    intro t hs
    have hs' : List.Sorted (· ≤ ·) (A ++ m :: t) := by
      simpa using hs.of_cons
    have ham : a ≤ m := by
      have h1 : m ∈ A ++ m :: t := by simp
      have h2 := List.rel_of_sorted_cons (by simpa using hs) m h1
      exact h2
    by_cases hxa : x ≤ a
    · have hxm : ¬ m < x := not_lt.mpr (hxa.trans ham)
      rw [if_neg hxm]
      have he : List.orderedInsert (· ≤ ·) x ((a :: A) ++ m :: t) =
          (x :: a :: A) ++ m :: t := by
        simp [List.orderedInsert, hxa]
      rw [he]
      have hlen : (m :: t).length ≠ 0 := by simp
      have := sliceLast_append_left (x :: a :: A) (m :: t) hlen
      simpa using this
    · have he : List.orderedInsert (· ≤ ·) x ((a :: A) ++ m :: t) =
          a :: List.orderedInsert (· ≤ ·) x (A ++ m :: t) := by
        simp [List.orderedInsert, hxa]
      rw [he]
      have hlen : (List.orderedInsert (· ≤ ·) x (A ++ m :: t)).length =
          A.length + t.length + 2 := by
        rw [List.orderedInsert_length]
        simp only [List.length_append, List.length_cons]
        omega
      rw [sliceLast_cons a _ _ (by omega) (by omega)]
      exact ih t hs'

/-- The k-largest window of a stream after one append, expressed from the
window before the append. -/
theorem get_k_largest_append (k : Nat) (stream : List Int) (x m : Int)
    (t : List Int) (hW : get_k_largest_elements k stream = m :: t)
    (hlen : (m :: t).length = k) :
    get_k_largest_elements k (stream ++ [x]) =
      if m < x then List.orderedInsert (· ≤ ·) x t else m :: t := by
  have hk : k ≠ 0 := by
    simp only [List.length_cons] at hlen
    omega
  unfold get_k_largest_elements at hW ⊢
  rw [pySorted_append_single]
  set L := pySorted stream with hL
  set A := L.take (L.length - k) with hA
  have hdecomp : L = A ++ m :: t := by
    conv_lhs => rw [← List.take_append_drop (L.length - k) L]
    congr 1
    unfold sliceLast at hW
    rw [if_neg hk] at hW
    exact hW
  have hsorted : List.Sorted (· ≤ ·) (A ++ m :: t) := by
    rw [← hdecomp]
    exact pySorted_sorted stream
  have hkt : k = t.length + 1 := by
    simp only [List.length_cons] at hlen
    omega
  rw [hdecomp, hkt]
  exact step_core x m A t hsorted

/-! ### Behaviour of the four strategy methods on a cons-shaped window -/

theorem orderedInsert_shape (x : Int) (t : List Int) :
    ∃ v t', List.orderedInsert (· ≤ ·) x t = v :: t' := by
  cases t with
  | nil => exact ⟨x, [], rfl⟩
  | cons b t' =>
    by_cases h : x ≤ b
    · exact ⟨x, b :: t', by simp [List.orderedInsert, h]⟩
    · exact ⟨b, List.orderedInsert (· ≤ ·) x t', by simp [List.orderedInsert, h]⟩

theorem orderedInsert_head_lower (x m v : Int) (t t' : List Int)
    (hs : List.Sorted (· ≤ ·) (m :: t)) (hmx : m < x)
    (h : List.orderedInsert (· ≤ ·) x t = v :: t') : m ≤ v := by
  cases t with
  | nil =>
    simp only [List.orderedInsert] at h
    cases h
    exact le_of_lt hmx
  | cons b tb =>
    by_cases hxb : x ≤ b
    · simp only [List.orderedInsert, if_pos hxb] at h
      injection h with h1 h2
      subst h1
      exact le_of_lt hmx
    · simp only [List.orderedInsert, if_neg hxb] at h
      injection h with h1 h2
      subst h1
      exact List.rel_of_sorted_cons hs _ (List.mem_cons_self _ _)

theorem sorted_head_min (v : Int) (t : List Int)
    (hs : List.Sorted (· ≤ ·) (v :: t)) : ∀ b ∈ v :: t, v ≤ b := by
  intro b hb
  rcases List.mem_cons.mp hb with h | h
  · exact h ▸ le_refl v
  · exact List.rel_of_sorted_cons hs b h

theorem add_stupid_spec (s : KthState) (x m : Int) (t : List Int)
    (hW : get_k_largest_elements s.k s.stream = m :: t)
    (hlen : (m :: t).length = s.k) :
    ∃ v, (if m < x then List.orderedInsert (· ≤ ·) x t else m :: t).head? = some v ∧
      add_stupid_method s x = some (v, { s with stream := s.stream ++ [x] }) := by
  have hstep := get_k_largest_append s.k s.stream x m t hW hlen
  unfold add_stupid_method get_kth_largest_element
  by_cases hmx : m < x
  · obtain ⟨v, t', hv⟩ := orderedInsert_shape x t
    rw [if_pos hmx] at hstep
    refine ⟨v, ?_, ?_⟩
    · rw [if_pos hmx, hv]
      rfl
    · rw [hstep, hv]
      rfl
  · rw [if_neg hmx] at hstep
    refine ⟨m, ?_, ?_⟩
    · rw [if_neg hmx]
      rfl
    · rw [hstep]
      rfl

theorem add_simple_spec (s : KthState) (x m : Int) (t : List Int)
    (hW : s.k_largest_elements_sorted_list = m :: t)
    (hs : List.Sorted (· ≤ ·) (m :: t)) :
    ∃ v, (if m < x then List.orderedInsert (· ≤ ·) x t else m :: t).head? = some v ∧
      add_simple_method s x = some (v, { s with k_largest_elements_sorted_list :=
        (if m < x then List.orderedInsert (· ≤ ·) x t else m :: t) }) := by
  have htail : pySorted ((m :: t ++ [x]).tail) = List.orderedInsert (· ≤ ·) x t := by
    simp only [List.cons_append, List.tail_cons]
    exact pySorted_cons_tail t x hs.of_cons
  unfold add_simple_method
  rw [hW]
  by_cases hmx : m < x
  · obtain ⟨v, t', hv⟩ := orderedInsert_shape x t
    refine ⟨v, ?_, ?_⟩
    · rw [if_pos hmx, hv]
      rfl
    · simp only [List.head?_cons, if_pos hmx, htail, hv]
  · refine ⟨m, ?_, ?_⟩
    · rw [if_neg hmx]
      rfl
    · simp only [List.head?_cons, if_neg hmx]
      rw [← hW]

theorem add_bst_spec (s : KthState) (x m : Int) (t : List Int)
    (hW : s.k_largest_elements_bst = m :: t) :
    ∃ v, (if m < x then List.orderedInsert (· ≤ ·) x t else m :: t).head? = some v ∧
      add_bst_method s x = some (v, { s with k_largest_elements_bst :=
        (if m < x then List.orderedInsert (· ≤ ·) x t else m :: t) }) := by
  unfold add_bst_method
  rw [hW]
  by_cases hmx : m < x
  · have hins : sortedListPop0 (sortedListAdd (m :: t) x) =
        List.orderedInsert (· ≤ ·) x t := by
      unfold sortedListAdd sortedListPop0
      simp [List.orderedInsert, not_le.mpr hmx]
    obtain ⟨v, t', hv⟩ := orderedInsert_shape x t
    refine ⟨v, ?_, ?_⟩
    · rw [if_pos hmx, hv]
      rfl
    · simp only [List.head?_cons, if_pos hmx, hins, hv]
  · refine ⟨m, ?_, ?_⟩
    · rw [if_neg hmx]
      rfl
    · simp only [List.head?_cons, if_neg hmx]
      rw [← hW]

theorem add_heap_spec (s : KthState) (x m : Int) (t : List Int)
    (hW : s.k_largest_elements_heap = m :: t) :
    ∃ v, (if m < x then List.orderedInsert (· ≤ ·) x t else m :: t).head? = some v ∧
      add_heap_method s x = some (v, { s with k_largest_elements_heap :=
        (if m < x then List.orderedInsert (· ≤ ·) x t else m :: t) }) := by
  unfold add_heap_method
  rw [hW]
  by_cases hmx : m < x
  · have hpush : heappush (m :: t) x = m :: List.orderedInsert (· ≤ ·) x t := by
      unfold heappush
      simp [List.orderedInsert, not_le.mpr hmx]
    obtain ⟨v, t', hv⟩ := orderedInsert_shape x t
    refine ⟨v, ?_, ?_⟩
    · rw [if_pos hmx, hv]
      rfl
    · simp only [List.head?_cons, if_pos hmx, hpush, heappop, List.tail_cons, hv]
      rfl
  · refine ⟨m, ?_, ?_⟩
    · rw [if_neg hmx]
      rfl
    · simp only [List.head?_cons, if_neg hmx]
      rw [← hW]

/-! ### The coordinator step: all four methods agree and preserve `Inv` -/

theorem add_spec (s : KthState) (x : Int) (h : Inv s) :
    ∃ v s4,
      add s x = some s4 ∧ Inv s4 ∧ s4.k = s.k ∧ s4.stream = s.stream ++ [x] ∧
      s4.k_largest_elements_sorted_list.head? = some v ∧
      (∃ s1 s2 s3,
        add_stupid_method s x = some (v, s1) ∧
        add_simple_method s1 x = some (v, s2) ∧
        add_bst_method s2 x = some (v, s3) ∧
        add_heap_method s3 x = some (v, s4)) ∧
      (add_stupid_method s x).map Prod.fst = some v ∧
      (add_simple_method s x).map Prod.fst = some v ∧
      (add_bst_method s x).map Prod.fst = some v ∧
      (add_heap_method s x).map Prod.fst = some v ∧
      (∀ m, s.k_largest_elements_sorted_list.head? = some m →
        m ≤ v ∧ (¬ m < x → v = m ∧
          s4.k_largest_elements_sorted_list = s.k_largest_elements_sorted_list ∧
          s4.k_largest_elements_bst = s.k_largest_elements_bst ∧
          s4.k_largest_elements_heap = s.k_largest_elements_heap)) := by
  obtain ⟨hk, hwin, hlen, hbst, hheap⟩ := h
  obtain ⟨m, t, hw⟩ : ∃ m t, s.k_largest_elements_sorted_list = m :: t := by
    cases hcase : s.k_largest_elements_sorted_list with
    | nil =>
      rw [hcase] at hlen
      simp only [List.length_nil] at hlen
      omega
    | cons m t => exact ⟨m, t, rfl⟩
  have hsort : List.Sorted (· ≤ ·) (m :: t) := by
    rw [← hw, hwin]
    exact sliceLast_sorted _ _ (pySorted_sorted _)
  have hW' : get_k_largest_elements s.k s.stream = m :: t := by rw [← hwin, hw]
  have hlen' : (m :: t).length = s.k := by rw [← hw, hlen]
  obtain ⟨v, hvhead, hstupid⟩ := add_stupid_spec s x m t hW' hlen'
  obtain ⟨v2, hv2head, hsimple⟩ :=
    add_simple_spec { s with stream := s.stream ++ [x] } x m t hw hsort
  have hv2 : v2 = v := by
    rw [hvhead] at hv2head
    exact ((Option.some.injEq _ _).mp hv2head).symm
  rw [hv2] at hsimple
  obtain ⟨v3, hv3head, hbst2⟩ :=
    add_bst_spec { s with stream := s.stream ++ [x], k_largest_elements_sorted_list := (if m < x then List.orderedInsert (· ≤ ·) x t else m :: t) } x m t
      (hbst.trans hw)
  have hv3 : v3 = v := by
    rw [hvhead] at hv3head
    exact ((Option.some.injEq _ _).mp hv3head).symm
  rw [hv3] at hbst2
  obtain ⟨v4, hv4head, hheap2⟩ :=
    add_heap_spec { s with stream := s.stream ++ [x], k_largest_elements_sorted_list := (if m < x then List.orderedInsert (· ≤ ·) x t else m :: t), k_largest_elements_bst := (if m < x then List.orderedInsert (· ≤ ·) x t else m :: t) } x m t
      (hheap.trans hw)
  have hv4 : v4 = v := by
    rw [hvhead] at hv4head
    exact ((Option.some.injEq _ _).mp hv4head).symm
  rw [hv4] at hheap2
  have hstep := get_k_largest_append s.k s.stream x m t hW' hlen'
  refine ⟨v, { s with stream := s.stream ++ [x], k_largest_elements_sorted_list := (if m < x then List.orderedInsert (· ≤ ·) x t else m :: t), k_largest_elements_bst := (if m < x then List.orderedInsert (· ≤ ·) x t else m :: t), k_largest_elements_heap := (if m < x then List.orderedInsert (· ≤ ·) x t else m :: t) }, ?_, ?_, rfl, rfl, hvhead,
    ⟨_, _, _, hstupid, hsimple, hbst2, hheap2⟩, ?_, ?_, ?_, ?_, ?_⟩
  · simp only [add, hstupid, hsimple, hbst2, hheap2]
  · refine ⟨hk, hstep.symm, ?_, rfl, rfl⟩
    by_cases hmx : m < x
    · show (if m < x then List.orderedInsert (· ≤ ·) x t else m :: t).length = s.k
      rw [if_pos hmx, List.orderedInsert_length]
      simp only [List.length_cons] at hlen'
      exact hlen'
    · show (if m < x then List.orderedInsert (· ≤ ·) x t else m :: t).length = s.k
      rw [if_neg hmx]
      exact hlen'
  · rw [hstupid]
    rfl
  · obtain ⟨va, hvahead, hsa⟩ := add_simple_spec s x m t hw hsort
    have hva : va = v := by
      rw [hvhead] at hvahead
      exact ((Option.some.injEq _ _).mp hvahead).symm
    rw [hva] at hsa
    rw [hsa]
    rfl
  · obtain ⟨vb, hvbhead, hsb⟩ := add_bst_spec s x m t (hbst.trans hw)
    have hvb : vb = v := by
      rw [hvhead] at hvbhead
      exact ((Option.some.injEq _ _).mp hvbhead).symm
    rw [hvb] at hsb
    rw [hsb]
    rfl
  · obtain ⟨vc, hvchead, hsc⟩ := add_heap_spec s x m t (hheap.trans hw)
    have hvc : vc = v := by
      rw [hvhead] at hvchead
      exact ((Option.some.injEq _ _).mp hvchead).symm
    rw [hvc] at hsc
    rw [hsc]
    rfl
  · intro m0 hm0
    have hm0m : m0 = m := by
      rw [hw] at hm0
      simp only [List.head?_cons, Option.some.injEq] at hm0
      exact hm0.symm
    subst hm0m
    constructor
    · by_cases hmx : m0 < x
      · rw [if_pos hmx] at hvhead
        obtain ⟨vv, tt, hOI⟩ := orderedInsert_shape x t
        rw [hOI] at hvhead
        simp only [List.head?_cons, Option.some.injEq] at hvhead
        rw [← hvhead]
        exact orderedInsert_head_lower x m0 vv t tt hsort hmx hOI
      · rw [if_neg hmx] at hvhead
        simp only [List.head?_cons, Option.some.injEq] at hvhead
        exact le_of_eq hvhead
    · intro hmx
      rw [if_neg hmx] at hvhead
      simp only [List.head?_cons, Option.some.injEq] at hvhead
      refine ⟨hvhead.symm, ?_, ?_, ?_⟩
      · show (if m0 < x then List.orderedInsert (· ≤ ·) x t else m0 :: t) =
          s.k_largest_elements_sorted_list
        rw [if_neg hmx, hw]
      · show (if m0 < x then List.orderedInsert (· ≤ ·) x t else m0 :: t) =
          s.k_largest_elements_bst
        rw [if_neg hmx, hbst.trans hw]
      · show (if m0 < x then List.orderedInsert (· ≤ ·) x t else m0 :: t) =
          s.k_largest_elements_heap
        rw [if_neg hmx, hheap.trans hw]

/-- The constructor establishes `Inv` whenever the seed has exactly `k > 0`
elements. -/
theorem init_inv (seed : List Int) (k : Nat) (hk : 0 < k)
    (hlen : seed.length = k) : Inv (init seed k) := by
  have hk0 : k ≠ 0 := Nat.pos_iff_ne_zero.mp hk
  have hsortlen : (pySorted seed).length = k := by
    rw [(pySorted_perm seed).length_eq, hlen]
  have h2 : sliceLast k (pySorted seed) = pySorted seed := by
    unfold sliceLast
    rw [if_neg hk0, hsortlen, Nat.sub_self, List.drop_zero]
  have h1 : get_k_largest_elements k seed = pySorted seed := by
    unfold get_k_largest_elements
    exact h2
  have h3 : pySorted (pySorted seed) = pySorted seed :=
    pySorted_eq_self _ (pySorted_sorted seed)
  exact ⟨hk, by simp [init, h1, h2], by simp [init, h1, h2, hsortlen],
    by simp [init, h1, h2, h3], by simp [init, h1, h2, h3]⟩

/-- Processing any observation sequence from an `Inv` state succeeds and
preserves `Inv`, appending the observations to the stream. -/
theorem processAll_spec (xs : List Int) : ∀ s : KthState, Inv s →
    ∃ s', processAll s xs = some s' ∧ Inv s' ∧ s'.k = s.k ∧
      s'.stream = s.stream ++ xs := by
  induction xs with
  | nil =>
    intro s h
    exact ⟨s, rfl, h, rfl, by simp⟩
  | cons x rest ih =>
    intro s h
    obtain ⟨v, s4, hadd, hinv4, hk4, hstream4, _⟩ := add_spec s x h
    obtain ⟨s', hproc, hinv', hk', hstream'⟩ := ih s4 hinv4
    refine ⟨s', ?_, hinv', by rw [hk', hk4], by rw [hstream', hstream4]; simp⟩
    unfold processAll
    rw [hadd]
    exact hproc

/-! ### Claim theorems -/

/-- C1: for every seed of exactly `k` numbers and every finite sequence of
subsequent observations, after each observation is processed the naive
full-scan method, the sorted-shortlist method, the BST method, and the heap
method all return the same k-th-largest value (namely the k-th largest of
the entire stream observed so far). -/
theorem all_methods_agree (seed : List Int) (k : Nat) (pre : List Int)
    (x : Int) (hk : 0 < k) (hlen : seed.length = k) :
    ∃ s v s1 s2 s3 s4,
      processAll (init seed k) pre = some s ∧
      add_stupid_method s x = some (v, s1) ∧
      add_simple_method s1 x = some (v, s2) ∧
      add_bst_method s2 x = some (v, s3) ∧
      add_heap_method s3 x = some (v, s4) ∧
      get_kth_largest_element k (seed ++ pre ++ [x]) = some v := by
  obtain ⟨s, hproc, hinv, hkk, hstream⟩ :=
    processAll_spec pre (init seed k) (init_inv seed k hk hlen)
  obtain ⟨v, s4, hadd, hinv4, hk4, hstream4, hhead4,
    ⟨s1, s2, s3, h1, h2, h3, h4⟩, _⟩ := add_spec s x hinv
  refine ⟨s, v, s1, s2, s3, s4, hproc, h1, h2, h3, h4, ?_⟩
  obtain ⟨_, hwin4, _, _, _⟩ := hinv4
  have hstream' : s4.stream = seed ++ pre ++ [x] := by
    rw [hstream4, hstream]
    simp [init]
  have hk' : s4.k = k := by
    rw [hk4, hkk, init_k]
  unfold get_kth_largest_element
  rw [← hk', ← hstream', ← hwin4]
  exact hhead4

/-- C1 witness: seed `[1,2,3]`, `k = 3`, prefix `[10, 0]`, next observation
`7`. -/
theorem all_methods_agree_witness :
    ∃ s v s1 s2 s3 s4,
      processAll (init [1, 2, 3] 3) [10, 0] = some s ∧
      add_stupid_method s 7 = some (v, s1) ∧
      add_simple_method s1 7 = some (v, s2) ∧
      add_bst_method s2 7 = some (v, s3) ∧
      add_heap_method s3 7 = some (v, s4) ∧
      get_kth_largest_element 3 ([1, 2, 3] ++ [10, 0] ++ [7]) = some v :=
  all_methods_agree [1, 2, 3] 3 [10, 0] 7 (by decide) (by decide)

/-- C2 counterexample: with the (unchecked) seed `[1]` and `k = 2`,
processing `5` makes the full-scan method return `1` while the shortlist
method, fed next in the coordinator's sequence, returns `5`; the two
results disagree, yet the coordinator's `add` signals nothing — it returns
the new state normally. -/
theorem add_no_invariant_signal :
    add_stupid_method (init [1] 2) 5 = some (1, ⟨[1, 5], 2, [1], [1], [1]⟩) ∧
    add_simple_method ⟨[1, 5], 2, [1], [1], [1]⟩ 5 =
      some (5, ⟨[1, 5], 2, [5], [1], [1]⟩) ∧
    (1 : Int) ≠ 5 ∧
    add (init [1] 2) 5 = some ⟨[1, 5], 2, [5], [5], [5]⟩ := by decide

/-- C2 (amended): the coordinator's `add` never compares the four
strategies' returned values and contains no failure signal of its own:
whenever the four method calls themselves succeed, `add` returns the final
state normally — whether or not the returned values agree. -/
theorem add_ignores_disagreement (s s1 s2 s3 s4 : KthState)
    (x v1 v2 v3 v4 : Int)
    (h1 : add_stupid_method s x = some (v1, s1))
    (h2 : add_simple_method s1 x = some (v2, s2))
    (h3 : add_bst_method s2 x = some (v3, s3))
    (h4 : add_heap_method s3 x = some (v4, s4)) :
    add s x = some s4 := by
  simp only [add, h1, h2, h3, h4]

/-- C2 (amended) witness: the disagreeing run (full-scan returns `1`, the
others `5`) still completes normally. -/
theorem add_ignores_disagreement_witness :
    add (init [1] 2) 5 = some ⟨[1, 5], 2, [5], [5], [5]⟩ :=
  add_ignores_disagreement (init [1] 2)
    ⟨[1, 5], 2, [1], [1], [1]⟩ ⟨[1, 5], 2, [5], [1], [1]⟩
    ⟨[1, 5], 2, [5], [5], [1]⟩ ⟨[1, 5], 2, [5], [5], [5]⟩
    5 1 5 5 5 (by decide) (by decide) (by decide) (by decide)

/-- C3 counterexample: construction with seed `[1, 2]` and `k = 1` (seed
length 2 ≠ 1) does not fail: it returns a fully formed state and the next
`add` succeeds on it as well. -/
theorem init_accepts_wrong_seed_length :
    ([1, 2] : List Int).length ≠ 1 ∧
    init [1, 2] 1 = ⟨[1, 2], 1, [2], [2], [2]⟩ ∧
    add (init [1, 2] 1) 0 = some ⟨[1, 2, 0], 1, [2], [2], [2]⟩ := by decide

/-- C3 (amended): construction checks no precondition and never raises: for
every seed and every `k` it succeeds, storing the seed as the stream and
the ascending list of the (at most) `k` largest seed values as each of the
three windows. -/
theorem init_never_fails (seed : List Int) (k : Nat) :
    init seed k = ⟨seed, k, get_k_largest_elements k seed,
      get_k_largest_elements k seed, get_k_largest_elements k seed⟩ := by
  have hidem : sliceLast k (get_k_largest_elements k seed) =
      get_k_largest_elements k seed := by
    unfold get_k_largest_elements
    exact sliceLast_idem k (pySorted seed)
  have hsorted : List.Sorted (· ≤ ·) (get_k_largest_elements k seed) :=
    sliceLast_sorted _ _ (pySorted_sorted seed)
  simp [init, hidem, pySorted_eq_self _ hsorted]

/-- C4: for the sorted-shortlist strategy on a sorted window with front
element `m`: `m` is the window minimum; if `x ≤ m` the window is unchanged
and the current minimum is returned; if `m < x` the minimum is removed, `x`
inserted, the sequence re-sorted, and the minimum of the re-sorted window
returned. -/
theorem simple_method_minimum_spec (s : KthState) (x m : Int)
    (hsorted : List.Sorted (· ≤ ·) s.k_largest_elements_sorted_list)
    (hm : s.k_largest_elements_sorted_list.head? = some m) :
    (∀ b ∈ s.k_largest_elements_sorted_list, m ≤ b) ∧
    (x ≤ m → add_simple_method s x = some (m, s)) ∧
    (m < x → ∃ v,
      add_simple_method s x = some (v, { s with k_largest_elements_sorted_list := pySorted (s.k_largest_elements_sorted_list.tail ++ [x]) }) ∧
      (pySorted (s.k_largest_elements_sorted_list.tail ++ [x])).head? = some v ∧
      ∀ b ∈ pySorted (s.k_largest_elements_sorted_list.tail ++ [x]), v ≤ b) := by
  obtain ⟨t, hw⟩ : ∃ t, s.k_largest_elements_sorted_list = m :: t := by
    cases hcase : s.k_largest_elements_sorted_list with
    | nil => rw [hcase] at hm; exact absurd hm (by simp)
    | cons a t =>
      rw [hcase] at hm
      simp only [List.head?_cons, Option.some.injEq] at hm
      exact ⟨t, by rw [hm]⟩
  rw [hw] at hsorted
  have htsort : List.Sorted (· ≤ ·) t := hsorted.of_cons
  have htail : pySorted (s.k_largest_elements_sorted_list.tail ++ [x]) =
      List.orderedInsert (· ≤ ·) x t := by
    rw [hw, List.tail_cons]
    exact pySorted_cons_tail t x htsort
  refine ⟨?_, ?_, ?_⟩
  · rw [hw]
    exact sorted_head_min m t hsorted
  · intro hx
    have hnx : ¬ m < x := not_lt.mpr hx
    obtain ⟨v, hvhead, heq⟩ := add_simple_spec s x m t hw hsorted
    rw [if_neg hnx] at hvhead heq
    simp only [List.head?_cons, Option.some.injEq] at hvhead
    rw [heq, ← hvhead, ← hw]
  · intro hmx
    obtain ⟨v, hvhead, heq⟩ := add_simple_spec s x m t hw hsorted
    rw [if_pos hmx] at hvhead heq
    have hOIsort : List.Sorted (· ≤ ·) (List.orderedInsert (· ≤ ·) x t) :=
      htsort.orderedInsert x t
    refine ⟨v, ?_, ?_, ?_⟩
    · rw [heq]
      congr 1
      rw [htail]
    · rw [htail]
      exact hvhead
    · rw [htail]
      obtain ⟨vv, tt, hOI⟩ := orderedInsert_shape x t
      rw [hOI] at hvhead ⊢
      simp only [List.head?_cons, Option.some.injEq] at hvhead
      rw [← hvhead]
      exact sorted_head_min vv tt (hOI ▸ hOIsort)

/-- C4 witness: window `[2, 4, 6]`, observation `5`. -/
theorem simple_method_minimum_spec_witness :
    (∀ b ∈ (KthState.mk [] 3 [2, 4, 6] [] []).k_largest_elements_sorted_list, (2:Int) ≤ b) ∧
    ((5:Int) ≤ 2 → add_simple_method ⟨[], 3, [2, 4, 6], [], []⟩ 5 = some (2, ⟨[], 3, [2, 4, 6], [], []⟩)) ∧
    ((2:Int) < 5 → ∃ v,
      add_simple_method ⟨[], 3, [2, 4, 6], [], []⟩ 5 = some (v, { KthState.mk [] 3 [2, 4, 6] [] [] with k_largest_elements_sorted_list := pySorted ((KthState.mk [] 3 [2, 4, 6] [] []).k_largest_elements_sorted_list.tail ++ [5]) }) ∧
      (pySorted ((KthState.mk [] 3 [2, 4, 6] [] []).k_largest_elements_sorted_list.tail ++ [5])).head? = some v ∧
      ∀ b ∈ pySorted ((KthState.mk [] 3 [2, 4, 6] [] []).k_largest_elements_sorted_list.tail ++ [5]), v ≤ b) :=
  simple_method_minimum_spec ⟨[], 3, [2, 4, 6], [], []⟩ 5 2 (by decide) (by decide)

/-- C5 counterexample: with the 3-element heap `[1, 2, 3]` and `x = 5`
above the minimum, the heap method's first heap operation (`heappush`)
produces the transient 4-element heap `[1, 2, 3, 5]` — a (k+1)-element
state — which only the separate second operation (`heappop`) shrinks back:
the update is two heap operations, not one combined push-then-pop. -/
theorem heap_transient_k_plus_one :
    heappush [1, 2, 3] 5 = [1, 2, 3, 5] ∧
    (heappush [1, 2, 3] 5).length = 3 + 1 ∧
    heappop (heappush [1, 2, 3] 5) = some (1, [2, 3, 5]) ∧
    add_heap_method ⟨[], 3, [], [], [1, 2, 3]⟩ 5 =
      some (2, ⟨[], 3, [], [], [2, 3, 5]⟩) := by decide

/-- C5 (amended): when `x` exceeds the heap minimum, the heap method
performs a separate `heappush` followed by a `heappop` — the intermediate
heap holds one element more than the window — and its final heap and
returned value coincide with those of the combined `heappushpop`
operation; the returned value is the new heap minimum. -/
theorem heap_method_push_then_pop (s : KthState) (x m : Int) (t : List Int)
    (hh : s.k_largest_elements_heap = m :: t)
    (hs : List.Sorted (· ≤ ·) (m :: t)) (hx : m < x) :
    (heappush s.k_largest_elements_heap x).length =
      s.k_largest_elements_heap.length + 1 ∧
    ∃ v, add_heap_method s x = some (v, { s with k_largest_elements_heap := (heappushpop s.k_largest_elements_heap x).2 }) ∧
      (heappushpop s.k_largest_elements_heap x).2.head? = some v ∧
      ∀ b ∈ (heappushpop s.k_largest_elements_heap x).2, v ≤ b := by
  have hpp : (heappushpop s.k_largest_elements_heap x).2 =
      List.orderedInsert (· ≤ ·) x t := by
    rw [hh]
    simp [heappushpop, if_pos hx]
  have htsort : List.Sorted (· ≤ ·) t := hs.of_cons
  have hOIsort : List.Sorted (· ≤ ·) (List.orderedInsert (· ≤ ·) x t) :=
    htsort.orderedInsert x t
  refine ⟨?_, ?_⟩
  · unfold heappush
    exact List.orderedInsert_length _ _ _
  · obtain ⟨v, hvhead, heq⟩ := add_heap_spec s x m t hh
    rw [if_pos hx] at hvhead heq
    refine ⟨v, ?_, ?_, ?_⟩
    · rw [heq]
      congr 1
      rw [hpp]
    · rw [hpp]
      exact hvhead
    · rw [hpp]
      obtain ⟨vv, tt, hOI⟩ := orderedInsert_shape x t
      rw [hOI] at hvhead ⊢
      simp only [List.head?_cons, Option.some.injEq] at hvhead
      rw [← hvhead]
      exact sorted_head_min vv tt (hOI ▸ hOIsort)

/-- C5 (amended) witness: heap `[3, 7]`, observation `5`. -/
theorem heap_method_push_then_pop_witness :
    (heappush (KthState.mk [] 2 [] [] [3, 7]).k_largest_elements_heap 5).length =
      (KthState.mk [] 2 [] [] [3, 7]).k_largest_elements_heap.length + 1 ∧
    ∃ v, add_heap_method ⟨[], 2, [], [], [3, 7]⟩ 5 = some (v, { KthState.mk [] 2 [] [] [3, 7] with k_largest_elements_heap := (heappushpop (KthState.mk [] 2 [] [] [3, 7]).k_largest_elements_heap 5).2 }) ∧
      (heappushpop (KthState.mk [] 2 [] [] [3, 7]).k_largest_elements_heap 5).2.head? = some v ∧
      ∀ b ∈ (heappushpop (KthState.mk [] 2 [] [] [3, 7]).k_largest_elements_heap 5).2, v ≤ b :=
  heap_method_push_then_pop ⟨[], 2, [], [], [3, 7]⟩ 5 3 [7]
    (by decide) (by decide) (by decide)

/-- C6: starting from a seed of exactly `k > 0` elements, the
sorted-shortlist and heap windows hold exactly `k` elements after every
sequence of `add` calls, including the empty one and the first. -/
theorem window_size_invariant (seed : List Int) (k : Nat) (xs : List Int)
    (hk : 0 < k) (hlen : seed.length = k) :
    ∃ s, processAll (init seed k) xs = some s ∧
      s.k_largest_elements_sorted_list.length = k ∧
      s.k_largest_elements_heap.length = k := by
  obtain ⟨s, hproc, hinv, hkk, _⟩ :=
    processAll_spec xs (init seed k) (init_inv seed k hk hlen)
  obtain ⟨_, _, hlen', _, hheap⟩ := hinv
  exact ⟨s, hproc, by rw [hlen', hkk, init_k], by rw [hheap, hlen', hkk, init_k]⟩

/-- C6 witness: seed `[4, 5, 6]`, `k = 3`, observations `[9, 1]`. -/
theorem window_size_invariant_witness :
    ∃ s, processAll (init [4, 5, 6] 3) [9, 1] = some s ∧
      s.k_largest_elements_sorted_list.length = 3 ∧
      s.k_largest_elements_heap.length = 3 :=
  window_size_invariant [4, 5, 6] 3 [9, 1] (by decide) (by decide)

/-- C7: in a reachable state whose current k-th-largest value is `m`, if
`x ≤ m` then every strategy's `add` returns `m`, the value that would have
been returned before the call. -/
theorem monotonic_admission (s : KthState) (x m : Int) (h : Inv s)
    (hm : s.k_largest_elements_sorted_list.head? = some m) (hx : x ≤ m) :
    get_kth_largest_element s.k s.stream = some m ∧
    (add_stupid_method s x).map Prod.fst = some m ∧
    (add_simple_method s x).map Prod.fst = some m ∧
    (add_bst_method s x).map Prod.fst = some m ∧
    (add_heap_method s x).map Prod.fst = some m := by
  have hwin := h.2.1
  obtain ⟨v, s4, _, _, _, _, _, _, hm1, hm2, hm3, hm4, hmono⟩ := add_spec s x h
  have hnx : ¬ m < x := not_lt.mpr hx
  obtain ⟨_, hrest⟩ := hmono m hm
  obtain ⟨hvm, _⟩ := hrest hnx
  subst hvm
  refine ⟨?_, hm1, hm2, hm3, hm4⟩
  unfold get_kth_largest_element
  rw [← hwin]
  exact hm

/-- C7 witness: state seeded from `[1, 2, 3]` with `k = 3`, current
k-th-largest `1`, observation `0 ≤ 1`. -/
theorem monotonic_admission_witness :
    get_kth_largest_element (KthState.mk [1, 2, 3] 3 [1, 2, 3] [1, 2, 3] [1, 2, 3]).k (KthState.mk [1, 2, 3] 3 [1, 2, 3] [1, 2, 3] [1, 2, 3]).stream = some 1 ∧
    (add_stupid_method ⟨[1, 2, 3], 3, [1, 2, 3], [1, 2, 3], [1, 2, 3]⟩ 0).map Prod.fst = some 1 ∧
    (add_simple_method ⟨[1, 2, 3], 3, [1, 2, 3], [1, 2, 3], [1, 2, 3]⟩ 0).map Prod.fst = some 1 ∧
    (add_bst_method ⟨[1, 2, 3], 3, [1, 2, 3], [1, 2, 3], [1, 2, 3]⟩ 0).map Prod.fst = some 1 ∧
    (add_heap_method ⟨[1, 2, 3], 3, [1, 2, 3], [1, 2, 3], [1, 2, 3]⟩ 0).map Prod.fst = some 1 :=
  monotonic_admission ⟨[1, 2, 3], 3, [1, 2, 3], [1, 2, 3], [1, 2, 3]⟩ 0 1
    (by decide) (by decide) (by decide)

/-- C8: with seed `[1,2,3,4,5]` and `k = 5`: every strategy returns `2`
after `add 10` (window becomes `{2,3,4,5,10}`), every strategy returns `2`
after the subsequent `add 0` (rejected, `0 ≤ 2`), and every strategy
returns `2` after the subsequent `add 2` (a tie with the minimum is a
no-op under the strict-greater admission rule). -/
theorem concrete_scenario_seed_one_to_five :
    ((add_stupid_method (init [1, 2, 3, 4, 5] 5) 10).map Prod.fst = some 2 ∧
     (add_simple_method (init [1, 2, 3, 4, 5] 5) 10).map Prod.fst = some 2 ∧
     (add_bst_method (init [1, 2, 3, 4, 5] 5) 10).map Prod.fst = some 2 ∧
     (add_heap_method (init [1, 2, 3, 4, 5] 5) 10).map Prod.fst = some 2 ∧
     add (init [1, 2, 3, 4, 5] 5) 10 =
       some ⟨[1, 2, 3, 4, 5, 10], 5, [2, 3, 4, 5, 10], [2, 3, 4, 5, 10], [2, 3, 4, 5, 10]⟩) ∧
    ((add_stupid_method ⟨[1, 2, 3, 4, 5, 10], 5, [2, 3, 4, 5, 10], [2, 3, 4, 5, 10], [2, 3, 4, 5, 10]⟩ 0).map Prod.fst = some 2 ∧
     (add_simple_method ⟨[1, 2, 3, 4, 5, 10], 5, [2, 3, 4, 5, 10], [2, 3, 4, 5, 10], [2, 3, 4, 5, 10]⟩ 0).map Prod.fst = some 2 ∧
     (add_bst_method ⟨[1, 2, 3, 4, 5, 10], 5, [2, 3, 4, 5, 10], [2, 3, 4, 5, 10], [2, 3, 4, 5, 10]⟩ 0).map Prod.fst = some 2 ∧
     (add_heap_method ⟨[1, 2, 3, 4, 5, 10], 5, [2, 3, 4, 5, 10], [2, 3, 4, 5, 10], [2, 3, 4, 5, 10]⟩ 0).map Prod.fst = some 2 ∧
     add ⟨[1, 2, 3, 4, 5, 10], 5, [2, 3, 4, 5, 10], [2, 3, 4, 5, 10], [2, 3, 4, 5, 10]⟩ 0 =
       some ⟨[1, 2, 3, 4, 5, 10, 0], 5, [2, 3, 4, 5, 10], [2, 3, 4, 5, 10], [2, 3, 4, 5, 10]⟩) ∧
    ((add_stupid_method ⟨[1, 2, 3, 4, 5, 10, 0], 5, [2, 3, 4, 5, 10], [2, 3, 4, 5, 10], [2, 3, 4, 5, 10]⟩ 2).map Prod.fst = some 2 ∧
     (add_simple_method ⟨[1, 2, 3, 4, 5, 10, 0], 5, [2, 3, 4, 5, 10], [2, 3, 4, 5, 10], [2, 3, 4, 5, 10]⟩ 2).map Prod.fst = some 2 ∧
     (add_bst_method ⟨[1, 2, 3, 4, 5, 10, 0], 5, [2, 3, 4, 5, 10], [2, 3, 4, 5, 10], [2, 3, 4, 5, 10]⟩ 2).map Prod.fst = some 2 ∧
     (add_heap_method ⟨[1, 2, 3, 4, 5, 10, 0], 5, [2, 3, 4, 5, 10], [2, 3, 4, 5, 10], [2, 3, 4, 5, 10]⟩ 2).map Prod.fst = some 2 ∧
     add ⟨[1, 2, 3, 4, 5, 10, 0], 5, [2, 3, 4, 5, 10], [2, 3, 4, 5, 10], [2, 3, 4, 5, 10]⟩ 2 =
       some ⟨[1, 2, 3, 4, 5, 10, 0, 2], 5, [2, 3, 4, 5, 10], [2, 3, 4, 5, 10], [2, 3, 4, 5, 10]⟩) := by
  decide

/-- C9: starting from a seed of exactly `k > 0` elements, after any finite
sequence of `add` calls the sorted-shortlist, BST, and heap windows hold
the same multiset of `k` values. -/
theorem windows_same_multiset (seed : List Int) (k : Nat) (xs : List Int)
    (hk : 0 < k) (hlen : seed.length = k) :
    ∃ s, processAll (init seed k) xs = some s ∧
      (↑s.k_largest_elements_sorted_list : Multiset Int) =
        ↑s.k_largest_elements_bst ∧
      (↑s.k_largest_elements_sorted_list : Multiset Int) =
        ↑s.k_largest_elements_heap ∧
      Multiset.card (↑s.k_largest_elements_sorted_list : Multiset Int) = k := by
  obtain ⟨s, hproc, hinv, hkk, _⟩ :=
    processAll_spec xs (init seed k) (init_inv seed k hk hlen)
  obtain ⟨_, _, hlen', hbst, hheap⟩ := hinv
  refine ⟨s, hproc, by rw [hbst], by rw [hheap], ?_⟩
  rw [Multiset.coe_card, hlen', hkk, init_k]

/-- C9 witness: seed `[2, 8]`, `k = 2`, observations `[5, 1, 9]`. -/
theorem windows_same_multiset_witness :
    ∃ s, processAll (init [2, 8] 2) [5, 1, 9] = some s ∧
      (↑s.k_largest_elements_sorted_list : Multiset Int) =
        ↑s.k_largest_elements_bst ∧
      (↑s.k_largest_elements_sorted_list : Multiset Int) =
        ↑s.k_largest_elements_heap ∧
      Multiset.card (↑s.k_largest_elements_sorted_list : Multiset Int) = 2 :=
  windows_same_multiset [2, 8] 2 [5, 1, 9] (by decide) (by decide)

/-- C10: in a reachable state, for every strategy the values returned for
two successive observations are non-decreasing: all four strategies return
`v` for the first and `v'` for the second with `v ≤ v'` (so the reported
k-th-largest never drops below a previously reported value). -/
theorem returned_values_nondecreasing (s : KthState) (x y : Int)
    (h : Inv s) :
    ∃ v v' s4,
      add s x = some s4 ∧
      (add_stupid_method s x).map Prod.fst = some v ∧
      (add_simple_method s x).map Prod.fst = some v ∧
      (add_bst_method s x).map Prod.fst = some v ∧
      (add_heap_method s x).map Prod.fst = some v ∧
      (add_stupid_method s4 y).map Prod.fst = some v' ∧
      (add_simple_method s4 y).map Prod.fst = some v' ∧
      (add_bst_method s4 y).map Prod.fst = some v' ∧
      (add_heap_method s4 y).map Prod.fst = some v' ∧
      v ≤ v' := by
  obtain ⟨v, s4, hadd, hinv4, _, _, hhead4, _, a1, a2, a3, a4, _⟩ :=
    add_spec s x h
  obtain ⟨v', s4', _, _, _, _, _, _, b1, b2, b3, b4, hmono⟩ :=
    add_spec s4 y hinv4
  exact ⟨v, v', s4, hadd, a1, a2, a3, a4, b1, b2, b3, b4, (hmono v hhead4).1⟩

/-- C10 witness: state seeded from `[1, 2]` with `k = 2`, observations `5`
then `0`. -/
theorem returned_values_nondecreasing_witness :
    ∃ v v' s4,
      add ⟨[1, 2], 2, [1, 2], [1, 2], [1, 2]⟩ 5 = some s4 ∧
      (add_stupid_method ⟨[1, 2], 2, [1, 2], [1, 2], [1, 2]⟩ 5).map Prod.fst = some v ∧
      (add_simple_method ⟨[1, 2], 2, [1, 2], [1, 2], [1, 2]⟩ 5).map Prod.fst = some v ∧
      (add_bst_method ⟨[1, 2], 2, [1, 2], [1, 2], [1, 2]⟩ 5).map Prod.fst = some v ∧
      (add_heap_method ⟨[1, 2], 2, [1, 2], [1, 2], [1, 2]⟩ 5).map Prod.fst = some v ∧
      (add_stupid_method s4 0).map Prod.fst = some v' ∧
      (add_simple_method s4 0).map Prod.fst = some v' ∧
      (add_bst_method s4 0).map Prod.fst = some v' ∧
      (add_heap_method s4 0).map Prod.fst = some v' ∧
      v ≤ v' :=
  returned_values_nondecreasing ⟨[1, 2], 2, [1, 2], [1, 2], [1, 2]⟩ 5 0
    (by decide)

end KthLargestStream
